import Mathlib

/-!
Verification of the belt-probe interactive calibration helper
(`klippy/extras/belt_probe.py`).

The scalar axis values that the Python code manipulates as floats are
modelled as rationals `ℚ`, so that the arithmetic of the bisection
algorithm (midpoints, fixed steps, comparisons) is exact.  Lists model the
Python lists, and the stateful session/registry behaviour is modelled as
explicit state passing over a small process-state record.
-/

namespace BeltProbe

/-- Source constant `BISECT_MAX = 0.200`: the fixed maximum step used by the
coarse (`++`/`--`) and as a cap for the fine (`+`/`-`) advance tokens. -/
def BISECT_MAX : ℚ := 0.200

/-- Source constant `Y_BOB_MINIMUM = 0.500`: the minimum clearance used by
`move_y`'s lift-and-return pattern. -/
def Y_BOB_MINIMUM : ℚ := 0.500

/-- Model of Python's `bisect.bisect_left(pp, y)` for the ascending-sorted
lists this program maintains: the index of the leftmost element that is
not smaller than `y`, i.e. the number of leading elements strictly below
`y`. -/
def bisect_left : List ℚ → ℚ → Nat
  | [], _ => 0
  | a :: t, y => if a < y then bisect_left t y + 1 else 0

/-- Model of the insertion step of `cmd_TESTY` (source lines 206-208):

    insert_pos = bisect.bisect_left(pp, y_pos)
    if insert_pos >= len(pp) or pp[insert_pos] != y_pos:
        pp.insert(insert_pos, y_pos)

`List.insertIdx` models Python's `list.insert`. -/
def testy_insert (pp : List ℚ) (y_pos : ℚ) : List ℚ :=
  let insert_pos := bisect_left pp y_pos
  if insert_pos ≥ pp.length ∨ pp[insert_pos]? ≠ some y_pos then
    List.insertIdx insert_pos y_pos pp
  else pp

theorem testy_insert_nil (y : ℚ) : testy_insert [] y = [y] := rfl

theorem bisect_left_cons_lt {a y : ℚ} (t : List ℚ) (h : a < y) :
    bisect_left (a :: t) y = bisect_left t y + 1 := by
  simp [bisect_left, h]

theorem bisect_left_cons_ge {a y : ℚ} (t : List ℚ) (h : ¬a < y) :
    bisect_left (a :: t) y = 0 := by
  simp [bisect_left, h]

theorem testy_insert_cons_lt {a y : ℚ} (t : List ℚ) (h : a < y) :
    testy_insert (a :: t) y = a :: testy_insert t y := by
  unfold testy_insert
  rw [bisect_left_cons_lt t h]
  have hidx : (a :: t)[bisect_left t y + 1]? = t[bisect_left t y]? := by simp
  have hlen : (bisect_left t y + 1 ≥ (a :: t).length) ↔ bisect_left t y ≥ t.length := by
    simp
  by_cases hg : bisect_left t y ≥ t.length ∨ t[bisect_left t y]? ≠ some y
  · rw [if_pos (by rw [hidx, hlen]; exact hg), if_pos hg, List.insertIdx_succ_cons]
  · rw [if_neg (by rw [hidx, hlen]; exact hg), if_neg hg]

theorem testy_insert_cons_self {y : ℚ} (t : List ℚ) :
    testy_insert (y :: t) y = y :: t := by
  unfold testy_insert
  rw [bisect_left_cons_ge t (lt_irrefl y), if_neg]
  simp

theorem testy_insert_cons_gt {a y : ℚ} (t : List ℚ) (h : y < a) :
    testy_insert (a :: t) y = y :: a :: t := by
  unfold testy_insert
  rw [bisect_left_cons_ge t (not_lt_of_gt h), if_pos]
  · rfl
  · exact Or.inr (by simp [ne_of_gt h])

/-- On a sorted list, `bisect_left` returns the number of elements strictly
below the probe value. -/
theorem bisect_left_eq_filter_length (pp : List ℚ) (y : ℚ)
    (hs : pp.Sorted (· < ·)) :
    bisect_left pp y = (pp.filter (fun p => decide (p < y))).length := by
  induction pp with
  | nil => rfl
  | cons a t ih =>
    obtain ⟨ha, hst⟩ := List.sorted_cons.mp hs
    by_cases h : a < y
    · rw [bisect_left_cons_lt t h]
      simp [h, ih hst]
    · rw [bisect_left_cons_ge t h]
      have : t.filter (fun p => decide (p < y)) = [] := by
        rw [List.filter_eq_nil_iff]
        intro b hb
        simp only [decide_eq_true_eq]
        exact fun hby => h (lt_trans (ha b hb) hby)
      simp [h, this]

/-- Structural characterization of the `cmd_TESTY` insertion step on a
sorted history: the result is the elements below `y`, then `y`, then the
elements above `y`. -/
theorem testy_insert_eq_filter (pp : List ℚ) (y : ℚ)
    (hs : pp.Sorted (· < ·)) :
    testy_insert pp y =
      pp.filter (fun p => decide (p < y)) ++
        y :: pp.filter (fun p => decide (y < p)) := by
  induction pp with
  | nil => simp [testy_insert_nil]
  | cons a t ih =>
    obtain ⟨ha, hst⟩ := List.sorted_cons.mp hs
    rcases lt_trichotomy a y with h | h | h
    · rw [testy_insert_cons_lt t h, ih hst]
      simp [h, not_lt_of_gt h]
    · subst h
      rw [testy_insert_cons_self t]
      have h1 : t.filter (fun p => decide (p < a)) = [] := by
        rw [List.filter_eq_nil_iff]
        intro b hb
        simp only [decide_eq_true_eq]
        exact not_lt_of_gt (ha b hb)
      have h2 : t.filter (fun p => decide (a < p)) = t := by
        rw [List.filter_eq_self]
        intro b hb
        simp only [decide_eq_true_eq]
        exact ha b hb
      simp [lt_irrefl, h1, h2]
    · rw [testy_insert_cons_gt t h]
      have h1 : t.filter (fun p => decide (p < y)) = [] := by
        rw [List.filter_eq_nil_iff]
        intro b hb
        simp only [decide_eq_true_eq]
        exact fun hby => not_lt_of_gt (lt_trans h (ha b hb)) hby
      have h2 : t.filter (fun p => decide (y < p)) = t := by
        rw [List.filter_eq_self]
        intro b hb
        simp only [decide_eq_true_eq]
        exact lt_trans h (ha b hb)
      simp [not_lt_of_gt h, h, h1, h2, ne_of_gt h]

/-- The insertion step keeps the history strictly sorted ascending. -/
theorem testy_insert_sorted (pp : List ℚ) (y : ℚ) (hs : pp.Sorted (· < ·)) :
    (testy_insert pp y).Sorted (· < ·) := by
  rw [testy_insert_eq_filter pp y hs]
  rw [List.Sorted, List.pairwise_append]
  refine ⟨hs.filter _, ?_, ?_⟩
  · rw [List.pairwise_cons]
    refine ⟨?_, hs.filter _⟩
    intro b hb
    simpa using List.of_mem_filter hb
  · intro a hamem b hbmem
    have hay : a < y := by simpa using List.of_mem_filter hamem
    rcases List.mem_cons.mp hbmem with rfl | hbf
    · exact hay
    · have : y < b := by simpa using List.of_mem_filter hbf
      exact lt_trans hay this

/-- A value already present in the history is never re-inserted. -/
theorem testy_insert_of_mem (pp : List ℚ) (y : ℚ) (hs : pp.Sorted (· < ·))
    (hm : y ∈ pp) : testy_insert pp y = pp := by
  induction pp with
  | nil => cases hm
  | cons a t ih =>
    obtain ⟨ha, hst⟩ := List.sorted_cons.mp hs
    rcases List.mem_cons.mp hm with rfl | hmt
    · exact testy_insert_cons_self t
    · rw [testy_insert_cons_lt t (ha y hmt), ih hst hmt]

/-- The nearest previously tested position strictly above `y` (for a sorted
history this is the first element of the tail above `y`); `none` when no
such neighbor exists. -/
def nearest_above (pp : List ℚ) (y : ℚ) : Option ℚ :=
  (pp.filter (fun p => decide (y < p))).head?

/-- The nearest previously tested position strictly below `y`; `none` when
no such neighbor exists. -/
def nearest_below (pp : List ℚ) (y : ℚ) : Option ℚ :=
  (pp.filter (fun p => decide (p < y))).getLast?

theorem lt_of_nearest_above (pp : List ℚ) (y b : ℚ)
    (h : nearest_above pp y = some b) : y < b := by
  have hb : b ∈ pp.filter (fun p => decide (y < p)) := by
    unfold nearest_above at h
    rcases hf : pp.filter (fun p => decide (y < p)) with _ | ⟨c, t⟩
    · rw [hf] at h; cases h
    · rw [hf] at h
      simp only [List.head?_cons, Option.some.injEq] at h
      rw [← h]
      exact List.mem_cons_self c t
  simpa using List.of_mem_filter hb

theorem mem_of_getLast_eq_some {α : Type} {l : List α} {a : α}
    (h : l.getLast? = some a) : a ∈ l := by
  induction l with
  | nil => cases h
  | cons hd t ih =>
    cases t with
    | nil =>
      rw [List.getLast?_singleton] at h
      simp only [Option.some.injEq] at h
      simp [h]
    | cons b t2 =>
      rw [List.getLast?_cons_cons] at h
      exact List.mem_cons.mpr (Or.inr (ih h))

theorem gt_of_nearest_below (pp : List ℚ) (y b : ℚ)
    (h : nearest_below pp y = some b) : b < y := by
  unfold nearest_below at h
  simpa using List.of_mem_filter (mem_of_getLast_eq_some h)

/-- `(l ++ r).getD n d = l.getD n d` for an index inside `l`. -/
theorem getD_append_of_lt {α : Type} (l r : List α) (n : Nat) (d : α)
    (h : n < l.length) : (l ++ r).getD n d = l.getD n d := by
  induction l generalizing n with
  | nil => simp at h
  | cons a t ih =>
    cases n with
    | zero => simp
    | succ m =>
      rw [List.cons_append, List.getD_cons_succ, List.getD_cons_succ]
      exact ih m (by simpa using h)

/-- `(l ++ r).getD (l.length + n) d = r.getD n d`. -/
theorem getD_append_length_add {α : Type} (l r : List α) (n : Nat) (d : α) :
    (l ++ r).getD (l.length + n) d = r.getD n d := by
  induction l with
  | nil => simp
  | cons a t ih =>
    rw [List.cons_append, List.length_cons]
    rw [show t.length + 1 + n = t.length + n + 1 by omega, List.getD_cons_succ]
    exact ih

/-- The last element of a nonempty list, through `getD` at index
`length - 1`. -/
theorem getD_length_sub_one {α : Type} (l : List α) (d : α) (h : l ≠ []) :
    l.getD (l.length - 1) d = l.getLast?.getD d := by
  induction l with
  | nil => exact absurd rfl h
  | cons a t ih =>
    cases t with
    | nil => simp
    | cons b t2 =>
      rw [List.getLast?_cons_cons]
      rw [List.length_cons, Nat.add_sub_cancel]
      rw [show (b :: t2).length = (b :: t2).length - 1 + 1 by simp, List.getD_cons_succ]
      exact ih (by simp)

/-- The `Y` argument of `TESTY`: one of the four relative step tokens, or an
explicit signed numeric offset (`gcmd.get_float("Y")`). -/
inductive YReq where
  | plus
  | plusplus
  | minus
  | minusminus
  | offset (d : ℚ)
deriving DecidableEq

/-- Model of the candidate computation of `cmd_TESTY` (source lines
210-226), applied to the post-insertion history `pp` and the
pre-insertion index `insert_pos`:

    if req in ('+', '++'):
        check_y = 9999999999999.9
        if insert_pos < len(self.past_positions) - 1:
            check_y = self.past_positions[insert_pos + 1]
        if req == '+':
            check_y = (check_y + y_pos) / 2.
        next_y_pos = min(check_y, y_pos + BISECT_MAX)
    elif req in ('-', '--'):
        check_y = -9999999999999.9
        if insert_pos > 0:
            check_y = self.past_positions[insert_pos - 1]
        if req == '-':
            check_y = (check_y + y_pos) / 2.
        next_y_pos = max(check_y, y_pos - BISECT_MAX)
    else:
        next_y_pos = y_pos + gcmd.get_float("Y")
-/
def cmd_TESTY_next (pp : List ℚ) (insert_pos : Nat) (y_pos : ℚ)
    (req : YReq) : ℚ :=
  match req with
  | .plus | .plusplus =>
    let check_y : ℚ := 9999999999999.9
    let check_y := if insert_pos < pp.length - 1
      then pp.getD (insert_pos + 1) check_y else check_y
    let check_y := if req = .plus then (check_y + y_pos) / 2 else check_y
    min check_y (y_pos + BISECT_MAX)
  | .minus | .minusminus =>
    let check_y : ℚ := -9999999999999.9
    let check_y := if 0 < insert_pos
      then pp.getD (insert_pos - 1) check_y else check_y
    let check_y := if req = .minus then (check_y + y_pos) / 2 else check_y
    max check_y (y_pos - BISECT_MAX)
  | .offset d => y_pos + d

/-- One `cmd_TESTY` advance, up to the motion command: records the current
value `y_pos` into the history and computes the next candidate position.
Returns the updated history and the candidate `next_y_pos`. -/
def cmd_TESTY_core (pp : List ℚ) (y_pos : ℚ) (req : YReq) : List ℚ × ℚ :=
  let insert_pos := bisect_left pp y_pos
  let pp2 := testy_insert pp y_pos
  (pp2, cmd_TESTY_next pp2 insert_pos y_pos req)

theorem cmd_TESTY_next_append_plusplus (lo hi : List ℚ) (y : ℚ) :
    cmd_TESTY_next (lo ++ y :: hi) lo.length y .plusplus =
      min (hi.head?.getD 9999999999999.9) (y + BISECT_MAX) := by
  show (if lo.length < (lo ++ y :: hi).length - 1
      then (lo ++ y :: hi).getD (lo.length + 1) (9999999999999.9 : ℚ)
      else (9999999999999.9 : ℚ)) ⊓ (y + BISECT_MAX) = _
  cases hi with
  | nil =>
    rw [if_neg (by simp only [List.length_append, List.length_cons, List.length_nil]; omega)]
    rfl
  | cons b hi2 =>
    rw [if_pos (by simp only [List.length_append, List.length_cons]; omega)]
    rw [getD_append_length_add]
    rfl

theorem cmd_TESTY_next_append_plus (lo hi : List ℚ) (y : ℚ) :
    cmd_TESTY_next (lo ++ y :: hi) lo.length y .plus =
      min ((hi.head?.getD 9999999999999.9 + y) / 2) (y + BISECT_MAX) := by
  show ((if lo.length < (lo ++ y :: hi).length - 1
      then (lo ++ y :: hi).getD (lo.length + 1) (9999999999999.9 : ℚ)
      else (9999999999999.9 : ℚ)) + y) / 2 ⊓ (y + BISECT_MAX) = _
  cases hi with
  | nil =>
    rw [if_neg (by simp only [List.length_append, List.length_cons, List.length_nil]; omega)]
    rfl
  | cons b hi2 =>
    rw [if_pos (by simp only [List.length_append, List.length_cons]; omega)]
    rw [getD_append_length_add]
    rfl

theorem cmd_TESTY_next_append_minusminus (lo hi : List ℚ) (y : ℚ) :
    cmd_TESTY_next (lo ++ y :: hi) lo.length y .minusminus =
      max (lo.getLast?.getD (-9999999999999.9)) (y - BISECT_MAX) := by
  show (if 0 < lo.length
      then (lo ++ y :: hi).getD (lo.length - 1) (-9999999999999.9 : ℚ)
      else (-9999999999999.9 : ℚ)) ⊔ (y - BISECT_MAX) = _
  rcases eq_or_ne lo [] with rfl | hne
  · rw [if_neg (by simp)]
    rfl
  · have hpos : 0 < lo.length := List.length_pos.mpr hne
    rw [if_pos hpos, getD_append_of_lt _ _ _ _ (by omega),
      getD_length_sub_one lo _ hne]

theorem cmd_TESTY_next_append_minus (lo hi : List ℚ) (y : ℚ) :
    cmd_TESTY_next (lo ++ y :: hi) lo.length y .minus =
      max ((lo.getLast?.getD (-9999999999999.9) + y) / 2) (y - BISECT_MAX) := by
  show ((if 0 < lo.length
      then (lo ++ y :: hi).getD (lo.length - 1) (-9999999999999.9 : ℚ)
      else (-9999999999999.9 : ℚ)) + y) / 2 ⊔ (y - BISECT_MAX) = _
  rcases eq_or_ne lo [] with rfl | hne
  · rw [if_neg (by simp)]
    rfl
  · have hpos : 0 < lo.length := List.length_pos.mpr hne
    rw [if_pos hpos, getD_append_of_lt _ _ _ _ (by omega),
      getD_length_sub_one lo _ hne]

/-- On a sorted history, the `++` candidate is the minimum of the fixed-step
target and the nearest stored neighbor above (the sentinel standing in when
there is none). -/
theorem testy_candidate_plusplus (pp : List ℚ) (y : ℚ)
    (hs : pp.Sorted (· < ·)) :
    (cmd_TESTY_core pp y .plusplus).2 =
      min ((nearest_above pp y).getD 9999999999999.9) (y + BISECT_MAX) := by
  show cmd_TESTY_next (testy_insert pp y) (bisect_left pp y) y .plusplus = _
  rw [testy_insert_eq_filter pp y hs, bisect_left_eq_filter_length pp y hs,
    cmd_TESTY_next_append_plusplus]
  rfl

/-- On a sorted history, the `+` candidate is the minimum of the midpoint
toward the upper neighbor (sentinel when none) and the fixed-step target. -/
theorem testy_candidate_plus (pp : List ℚ) (y : ℚ)
    (hs : pp.Sorted (· < ·)) :
    (cmd_TESTY_core pp y .plus).2 =
      min (((nearest_above pp y).getD 9999999999999.9 + y) / 2)
        (y + BISECT_MAX) := by
  show cmd_TESTY_next (testy_insert pp y) (bisect_left pp y) y .plus = _
  rw [testy_insert_eq_filter pp y hs, bisect_left_eq_filter_length pp y hs,
    cmd_TESTY_next_append_plus]
  rfl

/-- On a sorted history, the `--` candidate is the maximum of the fixed-step
target and the nearest stored neighbor below (sentinel when none). -/
theorem testy_candidate_minusminus (pp : List ℚ) (y : ℚ)
    (hs : pp.Sorted (· < ·)) :
    (cmd_TESTY_core pp y .minusminus).2 =
      max ((nearest_below pp y).getD (-9999999999999.9)) (y - BISECT_MAX) := by
  show cmd_TESTY_next (testy_insert pp y) (bisect_left pp y) y .minusminus = _
  rw [testy_insert_eq_filter pp y hs, bisect_left_eq_filter_length pp y hs,
    cmd_TESTY_next_append_minusminus]
  rfl

/-- On a sorted history, the `-` candidate is the maximum of the midpoint
toward the lower neighbor (sentinel when none) and the fixed-step target. -/
theorem testy_candidate_minus (pp : List ℚ) (y : ℚ)
    (hs : pp.Sorted (· < ·)) :
    (cmd_TESTY_core pp y .minus).2 =
      max (((nearest_below pp y).getD (-9999999999999.9) + y) / 2)
        (y - BISECT_MAX) := by
  show cmd_TESTY_next (testy_insert pp y) (bisect_left pp y) y .minus = _
  rw [testy_insert_eq_filter pp y hs, bisect_left_eq_filter_length pp y hs,
    cmd_TESTY_next_append_minus]
  rfl

theorem cmd_TESTY_core_offset (pp : List ℚ) (y d : ℚ) :
    (cmd_TESTY_core pp y (.offset d)).2 = y + d := rfl

/-- A toolhead machine position as this module uses it: coordinates 0 and 1
(`pos[:2]`), and the probed coordinate at index 2 (`pos[2]`, the axis that
`move_y` commands and `cmd_ACCEPT` validates). -/
structure TPos where
  c0 : ℚ
  c1 : ℚ
  c2 : ℚ
deriving DecidableEq

/-- Coordinate access by index, to state position-agreement properties. -/
def TPos.coord (p : TPos) : Fin 3 → ℚ
  | ⟨0, _⟩ => p.c0
  | ⟨1, _⟩ => p.c1
  | ⟨2, _⟩ => p.c2

/-- The externally queryable status record (`manual_probe.status`), with the
keys set by `report_y_status` / `reset_status`. -/
structure Status where
  is_active : Bool
  y_position : Option ℚ
  y_position_lower : Option ℚ
  y_position_upper : Option ℚ
deriving DecidableEq

/-- Model of `BeltProbe.reset_status` (source lines 39-45). -/
def reset_status : Status :=
  { is_active := false, y_position := none,
    y_position_lower := none, y_position_upper := none }

/-- Abstraction of the decimal rendering `"%.3f" % v` used for the operator
message; the claims only distinguish rendered values from the `"??????"`
placeholder, so the exact digits are irrelevant here. -/
def fmt3 (v : ℚ) : String := toString v

/-- What one call of `report_y_status` produces: the status record it
stores, whether the resolution-limit warning was emitted, and the two
neighbor strings of the operator message. -/
structure YStatusReport where
  status : Status
  warned : Bool
  prev_str : String
  next_str : String
deriving DecidableEq

/-- Model of `BeltProbeHelper.report_y_status` (source lines 153-182),
given the current resolved axis value `y_pos` and the tested-position
history `pp`:

    if warn_no_change and y_pos == prev_pos:
        ...WARNING...
    pp = self.past_positions
    next_pos = bisect.bisect_left(pp, y_pos)
    prev_pos = next_pos - 1
    if next_pos < len(pp) and pp[next_pos] == y_pos:
        next_pos += 1
    prev_pos_val = next_pos_val = None
    prev_str = next_str = "??????"
    if prev_pos >= 0:
        prev_pos_val = pp[prev_pos]; prev_str = "%.3f" % prev_pos_val
    if next_pos < len(pp):
        next_pos_val = pp[next_pos]; next_str = "%.3f" % next_pos_val
    self.manual_probe.status = {...}

The Python comparison `y_pos == prev_pos` with a `None` argument is false,
which the `Option` comparison mirrors. -/
def report_y_status (pp : List ℚ) (y_pos : ℚ) (warn_no_change : Bool)
    (prev_pos : Option ℚ) : YStatusReport :=
  let warned := warn_no_change && decide (some y_pos = prev_pos)
  let next_pos := bisect_left pp y_pos
  let prev_pos : Int := (next_pos : Int) - 1
  let next_pos := if pp[next_pos]? = some y_pos then next_pos + 1 else next_pos
  let prev_pos_val : Option ℚ := if 0 ≤ prev_pos then pp[prev_pos.toNat]? else none
  let next_pos_val : Option ℚ := pp[next_pos]?
  { status :=
      { is_active := true, y_position := some y_pos,
        y_position_lower := prev_pos_val, y_position_upper := next_pos_val },
    warned := warned,
    prev_str := (prev_pos_val.map fmt3).getD ("??????"),
    next_str := (next_pos_val.map fmt3).getD ("??????") }

/-- The per-session data the helper object owns. -/
structure SessionData where
  speed : ℚ
  past_positions : List ℚ
  start_position : TPos
deriving DecidableEq

/-- The process-wide state the helper manipulates: the command dispatcher's
registered transient command names (the `ACCEPT` registration doubles as
the session guard), the shared status record, the live session data, and
the accumulated invocations of the completion callback (each entry is the
`kin_pos` argument of one call). -/
structure ProcState where
  registered : List String
  status : Status
  session : Option SessionData
  callback_calls : List (Option TPos)
deriving DecidableEq

/-- `gcode.register_command(name, None)`: drop the handler registered under
`name`; dropping an unregistered name is a tolerated no-op. -/
def register_none (registered : List String) (name : String) : List String :=
  registered.filter (fun n => n ≠ name)

/-- Model of `BeltProbeHelper.finalize` (source lines 231-240): reset the
shared status, unregister the four transient commands, resolve the final
position when the outcome is success, and invoke the completion callback.
`resolved` models `get_kinematics_pos()` at finalize time. -/
def finalize (s : ProcState) (success : Bool) (resolved : TPos) : ProcState :=
  { registered :=
      register_none (register_none (register_none (register_none
        s.registered ("ACCEPT")) ("NEXT")) ("ABORT")) ("TESTY"),
    status := reset_status,
    session := s.session,
    callback_calls :=
      s.callback_calls ++ [if success then some resolved else none] }

/-- Result of attempting to start a session: either the conflict error of
`verify_no_manual_probe` (with the untouched process state), or the
started state. -/
inductive StartResult where
  | conflict (s : ProcState)
  | started (s : ProcState)
deriving DecidableEq

/-- Model of starting a helper session: `verify_no_manual_probe` (source
lines 88-95) followed by `BeltProbeHelper.__init__` (lines 105-127).
Registering `ACCEPT` while it is already registered raises, so the
construction aborts with the process state untouched; otherwise the four
transient commands are registered, `start_position` is captured, and the
initial `report_y_status()` runs with the history still empty.
`y_resolved` models the current resolved axis value, `start_pos` the
toolhead position captured as `start_position`. -/
def start_session (s : ProcState) (speed : ℚ) (start_pos : TPos)
    (y_resolved : ℚ) : StartResult :=
  if ("ACCEPT") ∈ s.registered then .conflict s
  else .started
    { registered := ("ACCEPT") :: ("NEXT") :: ("ABORT") :: ("TESTY") :: s.registered,
      status := (report_y_status [] y_resolved false none).status,
      session := some { speed := speed, past_positions := [], start_position := start_pos },
      callback_calls := s.callback_calls }

/-- What `cmd_ACCEPT` decides before finalizing: whether the failure
message is emitted, and the success flag passed to `finalize`. -/
structure AcceptResult where
  msg_failed : Bool
  success : Bool
deriving DecidableEq

/-- Model of the validation of `BeltProbeHelper.cmd_ACCEPT` (source lines
185-194):

    if pos[:2] != start_pos[:2] or pos[2] >= start_pos[2]:
        gcmd.respond_info("Belt probe failed! ...")
        self.finalize(False); return
    self.finalize(True)
-/
def cmd_ACCEPT_core (pos start_pos : TPos) : AcceptResult :=
  if (pos.c0, pos.c1) ≠ (start_pos.c0, start_pos.c1) ∨ pos.c2 ≥ start_pos.c2 then
    { msg_failed := true, success := false }
  else
    { msg_failed := false, success := true }

/-- The full `cmd_ACCEPT` state transition; returns the new process state
and whether the operator failure message was emitted. -/
def cmd_ACCEPT_step (s : ProcState) (pos start_pos : TPos)
    (resolved : TPos) : ProcState × Bool :=
  let r := cmd_ACCEPT_core pos start_pos
  (finalize s r.success resolved, r.msg_failed)

/-- Model of `BeltProbeHelper.cmd_ABORT` (source lines 197-198). -/
def cmd_ABORT_step (s : ProcState) (resolved : TPos) : ProcState :=
  finalize s false resolved

/-- Model of `BeltProbeHelper.move_y` (source lines 142-148): the sequence
of motion commands issued, each as (target for axis 2, speed):

    curpos = self.toolhead.get_position()
    y_bob_pos = y_pos + Y_BOB_MINIMUM
    if curpos[2] < y_bob_pos:
        self.toolhead.manual_move([None, None, y_bob_pos], self.speed)
    self.toolhead.manual_move([None, None, y_pos], self.speed)
-/
def move_y_cmds (curpos : TPos) (y_pos speed : ℚ) : List (ℚ × ℚ) :=
  let y_bob_pos := y_pos + Y_BOB_MINIMUM
  if curpos.c2 < y_bob_pos then [(y_bob_pos, speed), (y_pos, speed)]
  else [(y_pos, speed)]

/-- Everything one `cmd_TESTY` produces (source lines 201-229), given the
post-move resolved axis value `new_y` reported by the kinematics: the
updated history, the candidate, and the status report
`report_y_status(next_y_pos != y_pos, y_pos)` evaluated after the move. -/
structure TestyOutcome where
  past_positions : List ℚ
  next_y_pos : ℚ
  report : YStatusReport
deriving DecidableEq

/-- One full `cmd_TESTY` advance (insertion, candidate computation, then
the post-move status report with the resolution-stall check). -/
def cmd_TESTY_step (pp : List ℚ) (y_pos : ℚ) (req : YReq) (new_y : ℚ) :
    TestyOutcome :=
  let r := cmd_TESTY_core pp y_pos req
  { past_positions := r.1, next_y_pos := r.2,
    report := report_y_status r.1 new_y (decide (r.2 ≠ y_pos)) (some y_pos) }

/-- The fine-step (`+`) candidate as the specification words it: "let
`bound` be the next larger stored position ... else a very large sentinel;
for `+` target the midpoint between `y` and `bound`; take the smaller of
the computed target and `bound`".  Stated from the spec's words, to be
compared against `cmd_TESTY_core`. -/
def testy_fine_candidate_spec (pp : List ℚ) (y : ℚ) : ℚ :=
  let bound := (nearest_above pp y).getD 9999999999999.9
  min ((bound + y) / 2) bound

/-- Claim C1: for a `++` (`--`) advance the computed candidate equals the
minimum (maximum) of `y + BISECT_MAX` (`y - BISECT_MAX`) and the nearest
previously tested position strictly above (below) `y`; when no such
neighbor exists the sentinel is non-binding and the candidate is the
fixed-step target.  For an explicit numeric offset `d` the candidate is
`y + d` with no clamping.  The two sentinel hypotheses make "non-binding"
precise: the fixed-step target lies inside the sentinel range. -/
theorem claim_C1 (pp : List ℚ) (y d : ℚ) (hs : pp.Sorted (· < ·))
    (hub : y + BISECT_MAX ≤ 9999999999999.9)
    (hlb : -9999999999999.9 ≤ y - BISECT_MAX) :
    ((cmd_TESTY_core pp y .plusplus).2 =
      match nearest_above pp y with
      | some b => min (y + BISECT_MAX) b
      | none => y + BISECT_MAX) ∧
    ((cmd_TESTY_core pp y .minusminus).2 =
      match nearest_below pp y with
      | some b => max (y - BISECT_MAX) b
      | none => y - BISECT_MAX) ∧
    (cmd_TESTY_core pp y (.offset d)).2 = y + d := by
  refine ⟨?_, ?_, cmd_TESTY_core_offset pp y d⟩
  · rw [testy_candidate_plusplus pp y hs]
    cases hna : nearest_above pp y with
    | none => simpa using min_eq_right hub
    | some b => simp [min_comm]
  · rw [testy_candidate_minusminus pp y hs]
    cases hnb : nearest_below pp y with
    | none => simpa using max_eq_right hlb
    | some b => simp [max_comm]

/-- Witness for C1 at the spec's own example: no history and `y = 5`, where
`++` targets `5.2`, `--` targets `4.8`, and an explicit `-0.1` targets
`4.9`. -/
theorem claim_C1_witness :
    (([] : List ℚ).Sorted (· < ·) ∧
      (5 : ℚ) + BISECT_MAX ≤ 9999999999999.9 ∧
      (-9999999999999.9 : ℚ) ≤ 5 - BISECT_MAX) ∧
    (cmd_TESTY_core [] 5 .plusplus).2 = 5 + BISECT_MAX ∧
    (cmd_TESTY_core [] 5 .minusminus).2 = 5 - BISECT_MAX ∧
    (cmd_TESTY_core [] 5 (.offset (-1/10))).2 = 5 + (-1/10) := by
  have h := claim_C1 [] 5 (-1/10) List.sorted_nil
    (by norm_num [BISECT_MAX]) (by norm_num [BISECT_MAX])
  exact ⟨⟨List.sorted_nil, by norm_num [BISECT_MAX], by norm_num [BISECT_MAX]⟩,
    h.1, h.2.1, h.2.2⟩

/-- Counterexample to claim C2: with previously tested history `[1]` and
current value `0`, the `+` advance computes `min(midpoint, y + BISECT_MAX)
= 0.2`, not the spec's `min(midpoint, bound) = 0.5`. -/
theorem claim_C2_counterexample :
    (cmd_TESTY_core [1] 0 .plus).2 = 1/5 ∧
    testy_fine_candidate_spec [1] 0 = 1/2 ∧
    (cmd_TESTY_core [1] 0 .plus).2 ≠ testy_fine_candidate_spec [1] 0 := by
  have h1 : (cmd_TESTY_core [1] 0 .plus).2 = 1/5 := by
    simp +decide only [cmd_TESTY_core, cmd_TESTY_next, testy_insert, bisect_left]
    norm_num [BISECT_MAX]
  have h2 : testy_fine_candidate_spec [1] 0 = 1/2 := by
    norm_num [testy_fine_candidate_spec, nearest_above]
  refine ⟨h1, h2, ?_⟩
  rw [h1, h2]
  norm_num

/-- Claim C2 (amended): for `+` the candidate equals the smaller of the
midpoint between `y` and the bound (the next larger stored position, or
the large sentinel) and the fixed-step target `y + BISECT_MAX` — the code
caps the midpoint with the fixed step, not with the bound itself;
symmetrically for `-`. -/
theorem claim_C2 (pp : List ℚ) (y : ℚ) (hs : pp.Sorted (· < ·)) :
    (cmd_TESTY_core pp y .plus).2 =
      min (((nearest_above pp y).getD 9999999999999.9 + y) / 2)
        (y + BISECT_MAX) ∧
    (cmd_TESTY_core pp y .minus).2 =
      max (((nearest_below pp y).getD (-9999999999999.9) + y) / 2)
        (y - BISECT_MAX) :=
  ⟨testy_candidate_plus pp y hs, testy_candidate_minus pp y hs⟩

/-- Witness for the amended C2 at history `[1]`, `y = 0`. -/
theorem claim_C2_witness :
    ([1] : List ℚ).Sorted (· < ·) ∧
    (cmd_TESTY_core [1] 0 .plus).2 =
      min (((nearest_above [1] 0).getD 9999999999999.9 + 0) / 2)
        (0 + BISECT_MAX) ∧
    (cmd_TESTY_core [1] 0 .minus).2 =
      max (((nearest_below [1] 0).getD (-9999999999999.9) + 0) / 2)
        (0 - BISECT_MAX) := by
  have h := claim_C2 [1] 0 (by decide)
  exact ⟨by decide, h.1, h.2⟩

/-- Claim C3: each `TESTY` insertion keeps the history strictly sorted
ascending (hence duplicate-free), never re-inserts a value already
present, and over any sequence of advances the history (starting empty at
session start) stays strictly sorted. -/
theorem claim_C3 :
    (∀ (pp : List ℚ) (y : ℚ), pp.Sorted (· < ·) →
      (testy_insert pp y).Sorted (· < ·) ∧
        (y ∈ pp → testy_insert pp y = pp)) ∧
    (∀ ys : List ℚ, (ys.foldl testy_insert []).Sorted (· < ·)) := by
  constructor
  · intro pp y hs
    exact ⟨testy_insert_sorted pp y hs, testy_insert_of_mem pp y hs⟩
  · have gen : ∀ (ys pp : List ℚ), pp.Sorted (· < ·) →
        (ys.foldl testy_insert pp).Sorted (· < ·) := by
      intro ys
      induction ys with
      | nil => intro pp h; exact h
      | cons y t ih =>
        intro pp h
        exact ih _ (testy_insert_sorted pp y h)
    intro ys
    exact gen ys [] List.sorted_nil

/-- Witness for C3: inserting `2` into `[1, 3]` stays sorted, inserting a
present `2` into `[1, 2]` is a no-op, and a concrete advance sequence
yields a sorted history. -/
theorem claim_C3_witness :
    (testy_insert [1, 3] 2).Sorted (· < ·) ∧
    testy_insert [1, 2] 2 = [1, 2] ∧
    ([4, 1, 4, 2].foldl testy_insert []).Sorted (· < ·) :=
  ⟨(claim_C3.1 [1, 3] 2 (by decide)).1,
    (claim_C3.1 [1, 2] 2 (by decide)).2 (by decide),
    claim_C3.2 [4, 1, 4, 2]⟩

/-- Claim C10: every step-token advance strictly moves the candidate in
the token's direction — above `y` for `+`/`++`, below `y` for `-`/`--` —
on a sorted history; the hypotheses keep `y` inside the sentinel range, so
that the bound on the token's side (stored neighbor or sentinel) is
strictly beyond `y`. -/
theorem claim_C10 (pp : List ℚ) (y : ℚ) (hs : pp.Sorted (· < ·))
    (h1 : y < 9999999999999.9) (h2 : -9999999999999.9 < y) :
    y < (cmd_TESTY_core pp y .plus).2 ∧
    y < (cmd_TESTY_core pp y .plusplus).2 ∧
    (cmd_TESTY_core pp y .minus).2 < y ∧
    (cmd_TESTY_core pp y .minusminus).2 < y := by
  have hB : (0 : ℚ) < BISECT_MAX := by norm_num [BISECT_MAX]
  have hub : y < (nearest_above pp y).getD 9999999999999.9 := by
    cases hna : nearest_above pp y with
    | none => simpa using h1
    | some b => simpa using lt_of_nearest_above pp y b hna
  have hlb : (nearest_below pp y).getD (-9999999999999.9) < y := by
    cases hnb : nearest_below pp y with
    | none => simpa using h2
    | some b => simpa using gt_of_nearest_below pp y b hnb
  refine ⟨?_, ?_, ?_, ?_⟩
  · rw [testy_candidate_plus pp y hs, lt_min_iff]
    exact ⟨by linarith, by linarith⟩
  · rw [testy_candidate_plusplus pp y hs, lt_min_iff]
    exact ⟨hub, by linarith⟩
  · rw [testy_candidate_minus pp y hs, max_lt_iff]
    exact ⟨by linarith, by linarith⟩
  · rw [testy_candidate_minusminus pp y hs, max_lt_iff]
    exact ⟨hlb, by linarith⟩

/-- Witness for C10 at history `[1]`, `y = 0`. -/
theorem claim_C10_witness :
    ([1] : List ℚ).Sorted (· < ·) ∧
    (0 : ℚ) < (cmd_TESTY_core [1] 0 .plus).2 ∧
    (0 : ℚ) < (cmd_TESTY_core [1] 0 .plusplus).2 ∧
    (cmd_TESTY_core [1] 0 .minus).2 < 0 ∧
    (cmd_TESTY_core [1] 0 .minusminus).2 < 0 := by
  have h := claim_C10 [1] 0 (by decide) (by norm_num) (by norm_num)
  exact ⟨by decide, h.1, h.2.1, h.2.2.1, h.2.2.2⟩

/-- A concrete process state with an active session's transient commands
registered, used for concrete instantiations. -/
def procState0 : ProcState :=
  { registered := [("ACCEPT"), ("NEXT"), ("ABORT"), ("TESTY")],
    status := reset_status, session := none, callback_calls := [] }

/-- Claim C4: `ACCEPT` finalizes with success exactly when the current
position matches the start position in every coordinate except the probed
axis (index 2) and the probed axis strictly decreased; otherwise it emits
the distinct failure message and finalizes exactly like `ABORT` — never a
silent no-op. -/
theorem claim_C4 (s : ProcState) (pos start_pos resolved : TPos) :
    ((cmd_ACCEPT_core pos start_pos).success = true ↔
      ((∀ i : Fin 3, i ≠ 2 → pos.coord i = start_pos.coord i) ∧
        pos.c2 < start_pos.c2)) ∧
    ((cmd_ACCEPT_core pos start_pos).success = false →
      cmd_ACCEPT_step s pos start_pos resolved =
        (cmd_ABORT_step s resolved, true)) ∧
    ((cmd_ACCEPT_core pos start_pos).success = true →
      cmd_ACCEPT_step s pos start_pos resolved =
        (finalize s true resolved, false)) := by
  have hcoord : (∀ i : Fin 3, i ≠ 2 → pos.coord i = start_pos.coord i) ↔
      (pos.c0 = start_pos.c0 ∧ pos.c1 = start_pos.c1) := by
    constructor
    · intro h
      exact ⟨h 0 (by decide), h 1 (by decide)⟩
    · rintro ⟨h0, h1⟩ i hi
      fin_cases i
      · exact h0
      · exact h1
      · exact absurd rfl hi
  have hmsg : (cmd_ACCEPT_core pos start_pos).msg_failed =
      !(cmd_ACCEPT_core pos start_pos).success := by
    unfold cmd_ACCEPT_core
    split <;> rfl
  have hsucc : (cmd_ACCEPT_core pos start_pos).success = true ↔
      (pos.c0 = start_pos.c0 ∧ pos.c1 = start_pos.c1 ∧
        pos.c2 < start_pos.c2) := by
    unfold cmd_ACCEPT_core
    by_cases hc : (pos.c0, pos.c1) ≠ (start_pos.c0, start_pos.c1) ∨
        pos.c2 ≥ start_pos.c2
    · rw [if_pos hc]
      show false = true ↔ _
      constructor
      · intro hft
        exact Bool.noConfusion hft
      · rintro ⟨h0, h1, h2⟩
        rcases hc with hne | hge
        · exact absurd (by rw [h0, h1]) hne
        · exact absurd h2 (not_lt.mpr hge)
    · rw [if_neg hc]
      show true = true ↔ _
      push_neg at hc
      obtain ⟨hpair, hlt⟩ := hc
      have h0 : pos.c0 = start_pos.c0 := congrArg Prod.fst hpair
      have h1 : pos.c1 = start_pos.c1 := congrArg Prod.snd hpair
      simp [h0, h1, hlt]
  refine ⟨?_, ?_, ?_⟩
  · rw [hsucc, hcoord]
    tauto
  · intro hf
    show (finalize s (cmd_ACCEPT_core pos start_pos).success resolved,
      (cmd_ACCEPT_core pos start_pos).msg_failed) = _
    rw [hmsg, hf]
    rfl
  · intro ht
    show (finalize s (cmd_ACCEPT_core pos start_pos).success resolved,
      (cmd_ACCEPT_core pos start_pos).msg_failed) = _
    rw [hmsg, ht]
    rfl

/-- Witness for C4: a strictly decreased probed axis with matching other
coordinates accepts; a mismatched coordinate 0 makes `ACCEPT` behave like
`ABORT` with the failure message. -/
theorem claim_C4_witness :
    ((cmd_ACCEPT_core ⟨0, 0, -1⟩ ⟨0, 0, 0⟩).success = true ↔
      ((∀ i : Fin 3, i ≠ 2 →
          TPos.coord ⟨0, 0, -1⟩ i = TPos.coord ⟨0, 0, 0⟩ i) ∧
        (⟨0, 0, -1⟩ : TPos).c2 < (⟨0, 0, 0⟩ : TPos).c2)) ∧
    cmd_ACCEPT_step procState0 ⟨1, 0, 0⟩ ⟨0, 0, 0⟩ ⟨0, 0, 0⟩ =
      (cmd_ABORT_step procState0 ⟨0, 0, 0⟩, true) ∧
    cmd_ACCEPT_step procState0 ⟨0, 0, -1⟩ ⟨0, 0, 0⟩ ⟨0, 0, -1⟩ =
      (finalize procState0 true ⟨0, 0, -1⟩, false) :=
  ⟨(claim_C4 procState0 ⟨0, 0, -1⟩ ⟨0, 0, 0⟩ ⟨0, 0, -1⟩).1,
    (claim_C4 procState0 ⟨1, 0, 0⟩ ⟨0, 0, 0⟩ ⟨0, 0, 0⟩).2.1 (by decide),
    (claim_C4 procState0 ⟨0, 0, -1⟩ ⟨0, 0, 0⟩ ⟨0, 0, -1⟩).2.2 (by decide)⟩

/-- Counterexample to claim C5: `finalize` has no re-entry guard, so a
second call on the already-finalized state invokes the completion callback
again (the call list grows from one entry to two). -/
theorem claim_C5_counterexample :
    (finalize (finalize procState0 false ⟨0, 0, 0⟩) false ⟨0, 0, 0⟩).callback_calls ≠
      (finalize procState0 false ⟨0, 0, 0⟩).callback_calls := by
  simp [finalize, procState0]

/-- Claim C5 (amended): each `finalize` call appends exactly one completion
callback invocation — so a second invocation calls the callback a second
time rather than being suppressed — while the repeated guard release
(unregistering the transient commands) is a tolerated no-op: the second
call leaves the registry unchanged. -/
theorem claim_C5 (s : ProcState) (b b2 : Bool) (r r2 : TPos) :
    (finalize s b r).callback_calls =
      s.callback_calls ++ [if b then some r else none] ∧
    (finalize (finalize s b r) b2 r2).registered =
      (finalize s b r).registered := by
  refine ⟨rfl, ?_⟩
  have hmem : ∀ x ∈ (finalize s b r).registered,
      x ≠ ("ACCEPT") ∧ x ≠ ("NEXT") ∧ x ≠ ("ABORT") ∧ x ≠ ("TESTY") := by
    intro x hx
    simp only [finalize, register_none, List.mem_filter,
      decide_eq_true_eq] at hx
    tauto
  show register_none (register_none (register_none (register_none
      (finalize s b r).registered ("ACCEPT")) ("NEXT")) ("ABORT")) ("TESTY") =
    (finalize s b r).registered
  rw [show register_none ((finalize s b r).registered) ("ACCEPT") =
      (finalize s b r).registered from
    List.filter_eq_self.mpr fun x hx => by simp [(hmem x hx).1]]
  rw [show register_none ((finalize s b r).registered) ("NEXT") =
      (finalize s b r).registered from
    List.filter_eq_self.mpr fun x hx => by simp [(hmem x hx).2.1]]
  rw [show register_none ((finalize s b r).registered) ("ABORT") =
      (finalize s b r).registered from
    List.filter_eq_self.mpr fun x hx => by simp [(hmem x hx).2.2.1]]
  exact List.filter_eq_self.mpr fun x hx => by simp [(hmem x hx).2.2.2]

/-- Claim C6: starting a second session while `ACCEPT` is registered (the
session guard held) always fails with the conflict error and leaves the
whole process state — history, start position, registered commands —
untouched; after any `finalize`, a start always succeeds. -/
theorem claim_C6 :
    (∀ (s : ProcState) (speed : ℚ) (start_pos : TPos) (y : ℚ),
      ("ACCEPT") ∈ s.registered →
        start_session s speed start_pos y = .conflict s) ∧
    (∀ (s : ProcState) (b : Bool) (r : TPos) (speed : ℚ)
        (start_pos : TPos) (y : ℚ),
      ∃ s2, start_session (finalize s b r) speed start_pos y =
        .started s2) := by
  constructor
  · intro s speed st y h
    show (if ("ACCEPT") ∈ s.registered then StartResult.conflict s else _) = _
    rw [if_pos h]
  · intro s b r speed st y
    have hmem : ("ACCEPT") ∉ (finalize s b r).registered := by
      intro hx
      simp [finalize, register_none, List.mem_filter] at hx
    refine ⟨⟨("ACCEPT") :: ("NEXT") :: ("ABORT") :: ("TESTY") ::
        (finalize s b r).registered,
      (report_y_status [] y false none).status,
      some ⟨speed, [], st⟩, (finalize s b r).callback_calls⟩, ?_⟩
    show (if ("ACCEPT") ∈ (finalize s b r).registered
        then StartResult.conflict (finalize s b r) else _) = _
    rw [if_neg hmem]

/-- Witness for C6 with the concrete active-session state. -/
theorem claim_C6_witness :
    (("ACCEPT") ∈ procState0.registered ∧
      start_session procState0 5 ⟨0, 0, 0⟩ 0 = .conflict procState0) ∧
    ∃ s2, start_session (finalize procState0 false ⟨0, 0, 0⟩) 5 ⟨0, 0, 0⟩ 0 =
      .started s2 :=
  ⟨⟨by simp [procState0],
      claim_C6.1 procState0 5 ⟨0, 0, 0⟩ 0 (by simp [procState0])⟩,
    claim_C6.2 procState0 false ⟨0, 0, 0⟩ 5 ⟨0, 0, 0⟩ 0⟩

/-- Counterexample to claim C7: a `TESTY` advance with explicit offset `0`
commands a move to the unchanged position; the resolved value equals the
pre-move value, yet no resolution-limit warning is emitted (the code also
requires the commanded candidate to differ from the pre-move value). -/
theorem claim_C7_counterexample :
    ¬ (∀ (pp : List ℚ) (y : ℚ) (req : YReq) (new_y : ℚ), new_y = y →
        (cmd_TESTY_step pp y req new_y).report.warned = true) := by
  intro h
  have hw := h [] 0 (.offset 0) 0 rfl
  have hf : (cmd_TESTY_step [] 0 (.offset 0) 0).report.warned = false := by
    norm_num [cmd_TESTY_step, cmd_TESTY_core, cmd_TESTY_next, report_y_status]
  rw [hf] at hw
  exact Bool.noConfusion hw

/-- Claim C7 (amended): after a `TESTY` move the resolution-limit warning
is emitted exactly when the commanded candidate differs from the pre-move
value and the newly resolved value equals the pre-move value; it is a
warning only — the reported status keeps the session active. -/
theorem claim_C7 (pp : List ℚ) (y : ℚ) (req : YReq) (new_y : ℚ) :
    ((cmd_TESTY_step pp y req new_y).report.warned = true ↔
      ((cmd_TESTY_step pp y req new_y).next_y_pos ≠ y ∧ new_y = y)) ∧
    (cmd_TESTY_step pp y req new_y).report.status.is_active = true := by
  constructor
  · show (decide ((cmd_TESTY_core pp y req).2 ≠ y) &&
        decide (some new_y = some y)) = true ↔ _
    simp [cmd_TESTY_step]
  · rfl

/-- Claim C8: every advance-issued move runs at the session speed and uses
the lift-and-return pattern: when the current axis-2 coordinate is below
`y' + Y_BOB_MINIMUM` the session first commands the clearance height
`y' + Y_BOB_MINIMUM` and then `y'`; otherwise a single direct move. -/
theorem claim_C8 (curpos : TPos) (y_pos speed : ℚ) :
    (∀ m ∈ move_y_cmds curpos y_pos speed, m.2 = speed) ∧
    (if curpos.c2 < y_pos + Y_BOB_MINIMUM then
      move_y_cmds curpos y_pos speed =
        [(y_pos + Y_BOB_MINIMUM, speed), (y_pos, speed)]
    else move_y_cmds curpos y_pos speed = [(y_pos, speed)]) := by
  by_cases h : curpos.c2 < y_pos + Y_BOB_MINIMUM
  · have he : move_y_cmds curpos y_pos speed =
        [(y_pos + Y_BOB_MINIMUM, speed), (y_pos, speed)] := by
      show (if curpos.c2 < y_pos + Y_BOB_MINIMUM then
          [(y_pos + Y_BOB_MINIMUM, speed), (y_pos, speed)]
        else [(y_pos, speed)]) = _
      rw [if_pos h]
    rw [he, if_pos h]
    refine ⟨?_, rfl⟩
    intro m hm
    rcases List.mem_cons.mp hm with rfl | hm2
    · rfl
    · rcases List.mem_cons.mp hm2 with rfl | hm3
      · rfl
      · cases hm3
  · have he : move_y_cmds curpos y_pos speed = [(y_pos, speed)] := by
      show (if curpos.c2 < y_pos + Y_BOB_MINIMUM then
          [(y_pos + Y_BOB_MINIMUM, speed), (y_pos, speed)]
        else [(y_pos, speed)]) = _
      rw [if_neg h]
    rw [he, if_neg h]
    refine ⟨?_, rfl⟩
    intro m hm
    rcases List.mem_cons.mp hm with rfl | hm2
    · rfl
    · cases hm2

/-- Witness for C8: a low position triggers the two-move lift pattern. -/
theorem claim_C8_witness :
    (∀ m ∈ move_y_cmds ⟨0, 0, 0⟩ 1 5, m.2 = 5) ∧
    move_y_cmds ⟨0, 0, 0⟩ 1 5 = [(1 + Y_BOB_MINIMUM, 5), (1, 5)] := by
  have h := claim_C8 ⟨0, 0, 0⟩ 1 5
  refine ⟨h.1, ?_⟩
  have h2 := h.2
  rw [if_pos (by norm_num [Y_BOB_MINIMUM])] at h2
  exact h2

/-- Claim C9: a session start runs the initial status report while the
history is still empty, so the externally queryable status begins with the
active flag true, the current resolved value set, both neighbor fields
`None`, and the operator message shows the placeholder on both sides. -/
theorem claim_C9 (s : ProcState) (speed : ℚ) (start_pos : TPos) (y : ℚ)
    (h : ("ACCEPT") ∉ s.registered) :
    ∃ s2, start_session s speed start_pos y = .started s2 ∧
      s2.session = some ⟨speed, [], start_pos⟩ ∧
      s2.status = ⟨true, some y, none, none⟩ ∧
      (report_y_status [] y false none).warned = false ∧
      (report_y_status [] y false none).prev_str = ("??????") ∧
      (report_y_status [] y false none).next_str = ("??????") := by
  refine ⟨⟨("ACCEPT") :: ("NEXT") :: ("ABORT") :: ("TESTY") :: s.registered,
      (report_y_status [] y false none).status,
      some ⟨speed, [], start_pos⟩, s.callback_calls⟩,
    ?_, rfl, rfl, rfl, rfl, rfl⟩
  show (if ("ACCEPT") ∈ s.registered then StartResult.conflict s else _) = _
  rw [if_neg h]

/-- Witness for C9 on an empty registry. -/
theorem claim_C9_witness :
    ∃ s2, start_session ⟨[], reset_status, none, []⟩ 5 ⟨0, 0, 0⟩ 7 =
        .started s2 ∧
      s2.session = some ⟨5, [], ⟨0, 0, 0⟩⟩ ∧
      s2.status = ⟨true, some 7, none, none⟩ ∧
      (report_y_status [] 7 false none).warned = false ∧
      (report_y_status [] 7 false none).prev_str = ("??????") ∧
      (report_y_status [] 7 false none).next_str = ("??????") :=
  claim_C9 ⟨[], reset_status, none, []⟩ 5 ⟨0, 0, 0⟩ 7 (by simp)

end BeltProbe
